import Mathlib

/-!
Verification of the matrix-free conjugate-gradient ridge-regression routine:
the implicit linear operator built from a sparse design matrix, the ridge
drivers `sparse_ridge` and `sparse_ridge_intercept`, and the conjugate
gradient solver they delegate to.

Vectors are lists of rationals (exact arithmetic stands in for the float
arrays of the source); sparse matrices are shape plus (row, column, value)
entries.  The drivers are translated from the notebook source; the conjugate
gradient solver and the checked linear-operator application are library
routines not present in the repository and are modelled from the spec.
-/

/-- Componentwise vector addition (numpy `+` on equal-length arrays). -/
def addV (x y : List ℚ) : List ℚ := List.zipWith (· + ·) x y

/-- Componentwise vector subtraction. -/
def subV (x y : List ℚ) : List ℚ := List.zipWith (· - ·) x y

/-- Scalar times vector. -/
def smulV (a : ℚ) (x : List ℚ) : List ℚ := x.map (fun t => a * t)

/-- Dot product of two vectors. -/
def dotV (x y : List ℚ) : ℚ := (List.zipWith (· * ·) x y).sum

/-- A scipy-style sparse matrix: a shape (`rows` × `cols`) plus a list of
(row, column, value) entries.  Duplicate (row, column) entries accumulate by
summation when the matrix is materialized, as the spec's data model states. -/
structure SparseMatrix where
  rows : ℕ
  cols : ℕ
  entries : List (ℕ × ℕ × ℚ)
  deriving DecidableEq

/-- Transpose of a sparse matrix: swap the shape and every entry's indices. -/
def SparseMatrix.transpose (X : SparseMatrix) : SparseMatrix :=
  ⟨X.cols, X.rows, X.entries.map (fun e => (e.2.1, e.1, e.2.2))⟩

/-- Sparse matrix-vector product `X.dot(w)`: component `i` sums `v * w[c]`
over all stored entries `(i, c, v)` in row `i`.  Out-of-range coordinates of
`w` read as `0`. -/
def SparseMatrix.dotVec (X : SparseMatrix) (w : List ℚ) : List ℚ :=
  (List.range X.rows).map (fun i =>
    (X.entries.map (fun e => if e.1 = i then e.2.2 * w.getD e.2.1 0 else 0)).sum)

/-- Dense denotation of a sparse matrix: entry `(i, j)` is the sum of the
stored values at that position. -/
def SparseMatrix.toDense (X : SparseMatrix) (i j : ℕ) : ℚ :=
  (X.entries.map (fun e => if e.1 = i ∧ e.2.1 = j then e.2.2 else 0)).sum

/-- All stored entries lie inside the declared shape. -/
def SparseMatrix.WellFormed (X : SparseMatrix) : Prop :=
  ∀ e ∈ X.entries, e.1 < X.rows ∧ e.2.1 < X.cols

/-- Dense matrix-vector product of an `m × n` matrix given entrywise. -/
def denseMulVec (m n : ℕ) (M : ℕ → ℕ → ℚ) (w : List ℚ) : List ℚ :=
  (List.range m).map (fun i => ∑ j ∈ Finset.range n, M i j * w.getD j 0)

/-- Convergence statuses of the conjugate gradient solver (spec section 7). -/
inductive CGStatus where
  | converged
  | maxIterReached
  | breakdown
  deriving DecidableEq

/-- Errors raised by a solve call: a dimension mismatch between a vector and
an operator, or a failed destructuring of the returned solution. -/
inductive SolveError where
  | dimensionMismatch
  | unpackMismatch
  deriving DecidableEq

/-- An implicit linear operator: a declared square dimension and a
matrix-vector product function, with no explicit matrix storage. -/
structure LinearOperator where
  dim : ℕ
  matvec : List ℚ → List ℚ

/-- Modelled from the spec: the checked application of an implicit linear
operator (spec section 4.1, scipy's `LinearOperator` is not part of the
repository).  `apply(w)` requires `len(w) == n` and fails with a
`DimensionMismatch` error otherwise. -/
def LinearOperator.apply (A : LinearOperator) (w : List ℚ) : Except SolveError (List ℚ) :=
  if w.length = A.dim then Except.ok (A.matvec w) else Except.error SolveError.dimensionMismatch

/-- Modelled from the spec: the iteration of the Conjugate Gradient Solver
(spec section 4.2, `scipy.sparse.linalg.cg` is not part of the repository).
State is `(x, r, p, rs_old)` plus the count of completed iterations; `fuel`
is the remaining iteration budget.  Each pass computes `Ap`, stops with
`Breakdown` when the curvature `p·Ap` is zero or negative (before any
division by it), otherwise takes the step, stops with `Converged` when the
squared residual drops below `tolSq` (the square of the spec's `tol`), and
stops with `MaxIterReached` when the budget runs out. -/
def cgLoop (mv : List ℚ → List ℚ) (tolSq : ℚ) :
    ℕ → List ℚ → List ℚ → List ℚ → ℚ → ℕ → List ℚ × CGStatus × ℕ
  | 0, x, _, _, _, k => (x, CGStatus.maxIterReached, k)
  | fuel + 1, x, r, p, rsOld, k =>
    let Ap := mv p
    let pAp := dotV p Ap
    if pAp ≤ 0 then (x, CGStatus.breakdown, k)
    else
      let a := rsOld / pAp
      let x1 := addV x (smulV a p)
      let r1 := subV r (smulV a Ap)
      let rsNew := dotV r1 r1
      if rsNew < tolSq then (x1, CGStatus.converged, k + 1)
      else cgLoop mv tolSq fuel x1 r1 (addV r1 (smulV (rsNew / rsOld) p)) rsNew (k + 1)

/-- Modelled from the spec: the Conjugate Gradient Solver entry point
(spec section 4.2).  It first checks that the right-hand side has the
operator's dimension and fails with `DimensionMismatch` before any iteration
otherwise; then it initializes `x` from `x0` (zero vector when absent),
forms the residual and direction, and runs the iteration.  On success it
returns the iterate, the status and the number of iterations performed. -/
def cg (A : LinearOperator) (b : List ℚ) (x0 : Option (List ℚ)) (tolSq : ℚ) (maxIter : ℕ) :
    Except SolveError (List ℚ × CGStatus × ℕ) :=
  if b.length = A.dim then
    let x := x0.getD (List.replicate A.dim 0)
    let r := subV b (A.matvec x)
    Except.ok (cgLoop A.matvec tolSq maxIter x r r (dotV r r) 0)
  else Except.error SolveError.dimensionMismatch

/-- The matvec closure built inside `sparse_ridge` in the source:
`X.T.dot(X.dot(w)) + alpha * w`. -/
def ridgeMatvec (X : SparseMatrix) (alpha : ℚ) (w : List ℚ) : List ℚ :=
  addV (X.transpose.dotVec (X.dotVec w)) (smulV alpha w)

/-- The `sparse_ridge` driver from the source notebook: build the implicit
operator of dimension `n_features = X.shape[1]` around `ridgeMatvec`, build
the right-hand side `X.T.dot(y)`, call the conjugate gradient solver as
`w_hat, info = sparse.linalg.cg(A, X.T.dot(y), x0=x0)`, and return `w_hat`
only (the source drops `info`).  The solver's tolerance and iteration budget
are left as parameters standing for the library defaults. -/
def sparse_ridge (X : SparseMatrix) (y : List ℚ) (alpha : ℚ) (x0 : Option (List ℚ))
    (tolSq : ℚ) (maxIter : ℕ) : Except SolveError (List ℚ) :=
  Except.map (fun z => z.1)
    (cg ⟨X.cols, ridgeMatvec X alpha⟩ (X.transpose.dotVec y) x0 tolSq maxIter)

/-- The matvec closure built inside `sparse_ridge_intercept` in the source:
`alpha_diag = np.zeros(n_features + 1); alpha_diag[:n_features] = alpha;
Xb.T.dot(Xb.dot(w)) + np.diag(alpha_diag) @ w`, with
`n_features = Xb.shape[1] - 1`. -/
def interceptMatvec (Xb : SparseMatrix) (alpha : ℚ) (w : List ℚ) : List ℚ :=
  addV (Xb.transpose.dotVec (Xb.dotVec w))
    (List.zipWith (· * ·) (List.replicate (Xb.cols - 1) alpha ++ [0]) w)

/-- The `sparse_ridge_intercept` driver from the source notebook: build the
implicit operator of dimension `n_features + 1` around `interceptMatvec`,
call the conjugate gradient solver as
`(w_hat, b_hat), info = sparse.linalg.cg(A, Xb.T.dot(y), x0=x0)` — the
solution is destructured into exactly two components, which fails when the
returned vector does not have length two — and return `(w_hat, b_hat)`,
dropping `info` as the source does. -/
def sparse_ridge_intercept (Xb : SparseMatrix) (y : List ℚ) (alpha : ℚ) (x0 : Option (List ℚ))
    (tolSq : ℚ) (maxIter : ℕ) : Except SolveError (ℚ × ℚ) :=
  match cg ⟨Xb.cols - 1 + 1, interceptMatvec Xb alpha⟩ (Xb.transpose.dotVec y) x0 tolSq maxIter with
  | Except.error e => Except.error e
  | Except.ok (sol, _, _) =>
    match sol with
    | [wHat, bHat] => Except.ok (wHat, bHat)
    | _ => Except.error SolveError.unpackMismatch

/-- The module-level mutable names of the notebook that exist when
`sparse_ridge` is called: the globals `alpha` and `X` are reassigned between
cells.  (`y`, `w_hat`, `n_samples`, … are module-level too but play the same
role; two representatives suffice to state noninterference.) -/
structure NotebookGlobals where
  alphaGlobal : ℚ
  xGlobal : SparseMatrix

/-- A call to `sparse_ridge` in a notebook session carrying the module-level
state.  Per Python scoping the body of `sparse_ridge` resolves `X`, `y`,
`alpha`, `x0` and `n_features` to its parameters and locals — the enclosed
`matvec` closes over the parameter `alpha`, not the module-level `alpha` —
so the call reads nothing from the globals record. -/
def sparse_ridgeSession (g : NotebookGlobals) (X : SparseMatrix) (y : List ℚ) (alpha : ℚ)
    (x0 : Option (List ℚ)) (tolSq : ℚ) (maxIter : ℕ) : Except SolveError (List ℚ) :=
  sparse_ridge X y alpha x0 tolSq maxIter

/-- The spec's formula for the ridge operator, written with dense
matrix-vector products over the dense denotation of `X`:
`apply(w) = Xᵀ(X w) + alpha * w`. -/
def specRidgeApply (X : SparseMatrix) (alpha : ℚ) (w : List ℚ) : List ℚ :=
  addV (denseMulVec X.cols X.rows (fun i j => X.toDense j i)
          (denseMulVec X.rows X.cols X.toDense w))
    (smulV alpha w)

/-- The spec's right-hand side `b = Xᵀy`, written with a dense matrix-vector
product over the dense denotation of `X`. -/
def specRhs (X : SparseMatrix) (y : List ℚ) : List ℚ :=
  denseMulVec X.cols X.rows (fun i j => X.toDense j i) y

/-- State of the exact-arithmetic conjugate gradient iteration of spec
section 4.2, over `ℚ^n`: iterate, residual and search direction.  (`rs_old`
is always the squared norm of the current residual, so it is not stored.) -/
structure CGStateM (n : ℕ) where
  x : Fin n → ℚ
  r : Fin n → ℚ
  p : Fin n → ℚ

/-- Modelled from the spec: initialization of the conjugate gradient
iteration (spec section 4.2 steps 1–2): `r = b − A x0`, `p = r`. -/
def cgInitM {n : ℕ} (A : Matrix (Fin n) (Fin n) ℚ) (b x0 : Fin n → ℚ) : CGStateM n :=
  { x := x0, r := b - A.mulVec x0, p := b - A.mulVec x0 }

/-- Modelled from the spec: one pass of the conjugate gradient iteration
(spec section 4.2 step 3) in exact arithmetic:
`alpha = rs_old / (p·Ap)`, `x += alpha p`, `r -= alpha Ap`,
`beta = rs_new / rs_old`, `p = r + beta p`. -/
def cgStepM {n : ℕ} (A : Matrix (Fin n) (Fin n) ℚ) (s : CGStateM n) : CGStateM n :=
  let Ap := A.mulVec s.p
  let rs := Matrix.dotProduct s.r s.r
  let a := rs / Matrix.dotProduct s.p Ap
  let r1 := s.r - a • Ap
  let rs1 := Matrix.dotProduct r1 r1
  { x := s.x + a • s.p, r := r1, p := r1 + (rs1 / rs) • s.p }

/-- The conjugate gradient iterates: `k` passes of `cgStepM` from the
initial state. -/
def cgSeq {n : ℕ} (A : Matrix (Fin n) (Fin n) ℚ) (b x0 : Fin n → ℚ) (k : ℕ) : CGStateM n :=
  (cgStepM A)^[k] (cgInitM A b x0)

/-- The iterate after `k` passes. -/
def cgX {n : ℕ} (A : Matrix (Fin n) (Fin n) ℚ) (b x0 : Fin n → ℚ) (k : ℕ) : Fin n → ℚ :=
  (cgSeq A b x0 k).x

/-- The residual after `k` passes. -/
def cgR {n : ℕ} (A : Matrix (Fin n) (Fin n) ℚ) (b x0 : Fin n → ℚ) (k : ℕ) : Fin n → ℚ :=
  (cgSeq A b x0 k).r

/-- The search direction after `k` passes. -/
def cgP {n : ℕ} (A : Matrix (Fin n) (Fin n) ℚ) (b x0 : Fin n → ℚ) (k : ℕ) : Fin n → ℚ :=
  (cgSeq A b x0 k).p

/-- The squared residual norm `rs_k`. -/
def cgRS {n : ℕ} (A : Matrix (Fin n) (Fin n) ℚ) (b x0 : Fin n → ℚ) (k : ℕ) : ℚ :=
  Matrix.dotProduct (cgR A b x0 k) (cgR A b x0 k)

/-- The step size `alpha_k = rs_k / (p_k · A p_k)`. -/
def cgAlpha {n : ℕ} (A : Matrix (Fin n) (Fin n) ℚ) (b x0 : Fin n → ℚ) (k : ℕ) : ℚ :=
  cgRS A b x0 k / Matrix.dotProduct (cgP A b x0 k) (A.mulVec (cgP A b x0 k))

/-- A symmetric positive-definite matrix over `ℚ`. -/
def IsSymmPD {n : ℕ} (A : Matrix (Fin n) (Fin n) ℚ) : Prop :=
  A.IsSymm ∧ ∀ v : Fin n → ℚ, v ≠ 0 → 0 < Matrix.dotProduct v (A.mulVec v)

/-- The classical conjugate gradient invariant up to iteration `k`: earlier
residuals are orthogonal to later ones, earlier directions are `A`-conjugate
to later ones, and earlier directions are orthogonal to later residuals. -/
def CGInv {n : ℕ} (A : Matrix (Fin n) (Fin n) ℚ) (b x0 : Fin n → ℚ) (k : ℕ) : Prop :=
  (∀ i j, i < j → j ≤ k → Matrix.dotProduct (cgR A b x0 i) (cgR A b x0 j) = 0) ∧
  (∀ i j, i < j → j ≤ k → Matrix.dotProduct (cgP A b x0 i) (A.mulVec (cgP A b x0 j)) = 0) ∧
  (∀ i j, i < j → j ≤ k → Matrix.dotProduct (cgP A b x0 i) (cgR A b x0 j) = 0)

/-- One unfolding of the conjugate gradient loop with positive budget. -/
theorem cgLoop_succ (mv : List ℚ → List ℚ) (tolSq : ℚ) (fuel : ℕ) (x r p : List ℚ)
    (rsOld : ℚ) (k : ℕ) :
    cgLoop mv tolSq (fuel + 1) x r p rsOld k =
      if dotV p (mv p) ≤ 0 then (x, CGStatus.breakdown, k)
      else
        if dotV (subV r (smulV (rsOld / dotV p (mv p)) (mv p)))
            (subV r (smulV (rsOld / dotV p (mv p)) (mv p))) < tolSq then
          (addV x (smulV (rsOld / dotV p (mv p)) p), CGStatus.converged, k + 1)
        else
          cgLoop mv tolSq fuel (addV x (smulV (rsOld / dotV p (mv p)) p))
            (subV r (smulV (rsOld / dotV p (mv p)) (mv p)))
            (addV (subV r (smulV (rsOld / dotV p (mv p)) (mv p)))
              (smulV
                (dotV (subV r (smulV (rsOld / dotV p (mv p)) (mv p)))
                    (subV r (smulV (rsOld / dotV p (mv p)) (mv p))) / rsOld)
                p))
            (dotV (subV r (smulV (rsOld / dotV p (mv p)) (mv p)))
              (subV r (smulV (rsOld / dotV p (mv p)) (mv p))))
            (k + 1) := rfl

/-- Claim C4: whenever the conjugate gradient iteration reaches a search
direction `p` whose curvature `p·Ap` is zero or negative, the solve stops at
once with status `Breakdown` and returns the current (last valid) iterate:
no step, no division by `p·Ap`, and no further iteration happens. -/
theorem cg_breakdown_on_nonpositive_curvature (mv : List ℚ → List ℚ) (tolSq : ℚ)
    (fuel : ℕ) (x r p : List ℚ) (rsOld : ℚ) (k : ℕ) (h : dotV p (mv p) ≤ 0) :
    cgLoop mv tolSq (fuel + 1) x r p rsOld k = (x, CGStatus.breakdown, k) := by
  rw [cgLoop_succ, if_pos h]

/-- Witness for claim C4: a concrete zero-curvature direction (the zero
operator applied to `p = [1]`) stops the loop at the iterate `[5]` with
status `Breakdown` after zero completed iterations. -/
theorem cg_breakdown_on_nonpositive_curvature_witness :
    cgLoop (fun v => smulV 0 v) (1 / 1000000) 1 [5] [0] [1] 0 0 = ([5], CGStatus.breakdown, 0) :=
  cg_breakdown_on_nonpositive_curvature (fun v => smulV 0 v) (1 / 1000000) 0 [5] [0] [1] 0 0
    (by norm_num [dotV, smulV])

/-- Claim C5: a vector whose length differs from the operator's declared
dimension is rejected with a `DimensionMismatch` error, both by the
operator's checked application and by the solver when the right-hand side
has the wrong length; the solver then returns the bare error — no iterate,
no status, no iteration count — so zero iterations are performed and no
partial result escapes. -/
theorem dimension_mismatch_rejects_call (A : LinearOperator) (w b : List ℚ)
    (x0 : Option (List ℚ)) (tolSq : ℚ) (maxIter : ℕ)
    (hw : w.length ≠ A.dim) (hb : b.length ≠ A.dim) :
    A.apply w = Except.error SolveError.dimensionMismatch ∧
    cg A b x0 tolSq maxIter = Except.error SolveError.dimensionMismatch := by
  constructor
  · simp [LinearOperator.apply, hw]
  · simp [cg, hb]

/-- Witness for claim C5: a dimension-1 identity operator rejects the empty
vector and a length-2 right-hand side. -/
theorem dimension_mismatch_rejects_call_witness :
    LinearOperator.apply ⟨1, fun v => v⟩ [] = Except.error SolveError.dimensionMismatch ∧
    cg ⟨1, fun v => v⟩ [1, 2] none 1 5 = Except.error SolveError.dimensionMismatch :=
  dimension_mismatch_rejects_call ⟨1, fun v => v⟩ [] [1, 2] none 1 5 (by decide) (by decide)

/-- Claim C8: the ridge solve is deterministic.  A call to `sparse_ridge`
carried out under one module-level notebook state returns exactly what the
same call returns under any other module-level state (the globals `alpha`
and `X` are reassigned between notebook cells, yet the output depends only
on the arguments), so two calls with identical inputs yield identical
outputs. -/
theorem sparse_ridge_state_independent (g1 g2 : NotebookGlobals) (X : SparseMatrix)
    (y : List ℚ) (alpha : ℚ) (x0 : Option (List ℚ)) (tolSq : ℚ) (maxIter : ℕ) :
    sparse_ridgeSession g1 X y alpha x0 tolSq maxIter
      = sparse_ridgeSession g2 X y alpha x0 tolSq maxIter := rfl

/-- Claim C9: applying the implicit ridge operator for `X = [[1,0],[0,2]]`
(stored sparsely as its two nonzero entries) with `alpha = 0` to the vector
`w = [1,1]` yields `XᵀXw = [1,4]`. -/
theorem implicit_operator_example_value :
    ridgeMatvec ⟨2, 2, [(0, 0, 1), (1, 1, 2)]⟩ 0 [1, 1] = [1, 4] := by
  norm_num [ridgeMatvec, SparseMatrix.dotVec, SparseMatrix.transpose, addV, smulV, dotV,
    List.range_succ]

set_option maxRecDepth 8000

/-- Claim C1 counterexample: two calls of the ridge driver whose underlying
conjugate gradient solves end with different statuses (`Converged` with
`X = [[1]], y = [2]` versus `Breakdown` with the zero matrix and the warm
start `x0 = [2]`) return the very same value `ok [2]`, so the value returned
to the caller cannot contain the solver's convergence status: the source
binds `w_hat, info = sparse.linalg.cg(...)` and returns `w_hat` only. -/
theorem ridge_status_not_returned_counterexample :
    sparse_ridge ⟨1, 1, [(0, 0, 1)]⟩ [2] 0 none (1 / 1000000) 1 = Except.ok [2] ∧
    sparse_ridge ⟨1, 1, []⟩ [0] 0 (some [2]) (1 / 1000000) 1 = Except.ok [2] ∧
    cg ⟨1, ridgeMatvec ⟨1, 1, [(0, 0, 1)]⟩ 0⟩
        ((SparseMatrix.transpose ⟨1, 1, [(0, 0, 1)]⟩).dotVec [2]) none (1 / 1000000) 1
      = Except.ok ([2], CGStatus.converged, 1) ∧
    cg ⟨1, ridgeMatvec ⟨1, 1, []⟩ 0⟩
        ((SparseMatrix.transpose ⟨1, 1, []⟩).dotVec [0]) (some [2]) (1 / 1000000) 1
      = Except.ok ([2], CGStatus.breakdown, 0) ∧
    CGStatus.converged ≠ CGStatus.breakdown := by
  refine ⟨?_, ?_, ?_, ?_, by decide⟩ <;>
    norm_num [sparse_ridge, cg, cgLoop, ridgeMatvec, SparseMatrix.dotVec,
      SparseMatrix.transpose, addV, subV, smulV, dotV, List.range_succ, List.replicate_succ, List.replicate_zero, Except.map]

/-- Claim C1 as amended: the conjugate gradient solver hands the drivers a
solution together with a convergence status, and the drivers return only the
solution part — `sparse_ridge` the vector, `sparse_ridge_intercept` its two
components — for every status the solver may have produced; the status is
discarded before returning. -/
theorem ridge_drivers_return_solution_only (X : SparseMatrix) (y : List ℚ) (alpha : ℚ)
    (x0 : Option (List ℚ)) (tolSq : ℚ) (maxIter : ℕ) (sol : List ℚ) (st : CGStatus) (k : ℕ)
    (wh bh : ℚ) (st2 : CGStatus) (k2 : ℕ)
    (h1 : cg ⟨X.cols, ridgeMatvec X alpha⟩ (X.transpose.dotVec y) x0 tolSq maxIter
            = Except.ok (sol, st, k))
    (h2 : cg ⟨X.cols - 1 + 1, interceptMatvec X alpha⟩ (X.transpose.dotVec y) x0 tolSq maxIter
            = Except.ok ([wh, bh], st2, k2)) :
    sparse_ridge X y alpha x0 tolSq maxIter = Except.ok sol ∧
    sparse_ridge_intercept X y alpha x0 tolSq maxIter = Except.ok (wh, bh) := by
  constructor
  · simp [sparse_ridge, h1, Except.map]
  · simp [sparse_ridge_intercept, h2]

/-- Witness for the amended claim C1, at `X = [[1,0],[0,2]]`, `y = [1,1]`,
`alpha = 1`: both conjugate gradient solves converge in two iterations and
the drivers return the solution components alone. -/
theorem ridge_drivers_return_solution_only_witness :
    sparse_ridge ⟨2, 2, [(0, 0, 1), (1, 1, 2)]⟩ [1, 1] 1 none (1 / 1000000) 2
        = Except.ok [1 / 2, 2 / 5] ∧
    sparse_ridge_intercept ⟨2, 2, [(0, 0, 1), (1, 1, 2)]⟩ [1, 1] 1 none (1 / 1000000) 2
        = Except.ok (1 / 2, 1 / 2) :=
  ridge_drivers_return_solution_only ⟨2, 2, [(0, 0, 1), (1, 1, 2)]⟩ [1, 1] 1 none
    (1 / 1000000) 2 [1 / 2, 2 / 5] CGStatus.converged 2 (1 / 2) (1 / 2) CGStatus.converged 2
    (by norm_num [cg, cgLoop, ridgeMatvec, SparseMatrix.dotVec, SparseMatrix.transpose,
      addV, subV, smulV, dotV, List.range_succ, List.replicate_succ, List.replicate_zero])
    (by norm_num [cg, cgLoop, interceptMatvec, SparseMatrix.dotVec, SparseMatrix.transpose,
      addV, subV, smulV, dotV, List.range_succ, List.replicate_succ, List.replicate_zero])

/-- Length of a scalar multiple. -/
theorem length_smulV (a : ℚ) (x : List ℚ) : (smulV a x).length = x.length := by
  simp [smulV]

/-- Length of a componentwise sum. -/
theorem length_addV (x y : List ℚ) : (addV x y).length = min x.length y.length := by
  simp [addV]

/-- Length of a componentwise difference. -/
theorem length_subV (x y : List ℚ) : (subV x y).length = min x.length y.length := by
  simp [subV]

/-- When the right-hand side has the operator's dimension, the solver runs
the loop from the initial state of spec section 4.2 and succeeds. -/
theorem cg_ok_of_length (A : LinearOperator) (b : List ℚ) (x0 : Option (List ℚ))
    (tolSq : ℚ) (maxIter : ℕ) (hb : b.length = A.dim) :
    cg A b x0 tolSq maxIter = Except.ok
      (cgLoop A.matvec tolSq maxIter (x0.getD (List.replicate A.dim 0))
        (subV b (A.matvec (x0.getD (List.replicate A.dim 0))))
        (subV b (A.matvec (x0.getD (List.replicate A.dim 0))))
        (dotV (subV b (A.matvec (x0.getD (List.replicate A.dim 0))))
          (subV b (A.matvec (x0.getD (List.replicate A.dim 0))))) 0) := by
  simp [cg, hb]

/-- The conjugate gradient loop keeps the iterate's length equal to the
operator dimension when the matvec preserves that length and the initial
state has it. -/
theorem cgLoop_iterate_length (mv : List ℚ → List ℚ) (tolSq : ℚ) (d : ℕ)
    (hmv : ∀ v, v.length = d → (mv v).length = d) :
    ∀ (fuel : ℕ) (x r p : List ℚ) (rsOld : ℚ) (k : ℕ),
      x.length = d → r.length = d → p.length = d →
      ((cgLoop mv tolSq fuel x r p rsOld k).1).length = d := by
  intro fuel
  induction fuel with
  | zero =>
    intro x r p rsOld k hx _ _
    simpa [cgLoop] using hx
  | succ f ih =>
    intro x r p rsOld k hx hr hp
    have hAp : (mv p).length = d := hmv p hp
    rw [cgLoop_succ]
    by_cases hpap : dotV p (mv p) ≤ 0
    · rw [if_pos hpap]; exact hx
    · rw [if_neg hpap]
      have hx1 : (addV x (smulV (rsOld / dotV p (mv p)) p)).length = d := by
        simp [length_addV, length_smulV, hx, hp]
      have hr1 : (subV r (smulV (rsOld / dotV p (mv p)) (mv p))).length = d := by
        simp [length_subV, length_smulV, hr, hAp]
      by_cases hc : dotV (subV r (smulV (rsOld / dotV p (mv p)) (mv p)))
          (subV r (smulV (rsOld / dotV p (mv p)) (mv p))) < tolSq
      · rw [if_pos hc]; exact hx1
      · rw [if_neg hc]
        exact ih _ _ _ _ _ hx1 hr1 (by simp [length_addV, length_smulV, hr1, hp])

/-- Claim C10: `sparse_ridge_intercept` destructures the conjugate gradient
solution into exactly two components, so (for a warm start of the operator's
dimension, when given) it returns a pair when the augmented matrix `Xb` has
exactly two columns, and for every `Xb` with three or more columns the call
fails with the unpacking error instead of returning a solution vector. -/
theorem intercept_unpacks_exactly_two (Xb : SparseMatrix) (y : List ℚ) (alpha : ℚ)
    (x0 : Option (List ℚ)) (tolSq : ℚ) (maxIter : ℕ)
    (hx0 : ∀ v, x0 = some v → v.length = Xb.cols) :
    (Xb.cols = 2 → ∃ wb, sparse_ridge_intercept Xb y alpha x0 tolSq maxIter = Except.ok wb) ∧
    (3 ≤ Xb.cols → sparse_ridge_intercept Xb y alpha x0 tolSq maxIter
        = Except.error SolveError.unpackMismatch) := by
  rcases Nat.lt_or_ge Xb.cols 1 with hlt | hge
  · exact ⟨fun h => absurd h (by omega), fun h => absurd h (by omega)⟩
  · have hdim : Xb.cols - 1 + 1 = Xb.cols := Nat.succ_pred_eq_of_pos hge
    have hb : (Xb.transpose.dotVec y).length = Xb.cols := by
      simp [SparseMatrix.dotVec, SparseMatrix.transpose]
    have hmv : ∀ v, v.length = Xb.cols → (interceptMatvec Xb alpha v).length = Xb.cols := by
      intro v hv
      simp [interceptMatvec, length_addV, SparseMatrix.dotVec, SparseMatrix.transpose, hv, hdim]
    have hx : (x0.getD (List.replicate (Xb.cols - 1 + 1) 0)).length = Xb.cols := by
      cases hcase : x0 with
      | none => simp [hdim]
      | some v => simpa using hx0 v hcase
    have hr0 : (subV (Xb.transpose.dotVec y)
        (interceptMatvec Xb alpha (x0.getD (List.replicate (Xb.cols - 1 + 1) 0)))).length
          = Xb.cols := by
      simp [length_subV, hb, hmv _ hx]
    have hcg := cg_ok_of_length ⟨Xb.cols - 1 + 1, interceptMatvec Xb alpha⟩
      (Xb.transpose.dotVec y) x0 tolSq maxIter (by simpa [hdim] using hb)
    obtain ⟨⟨sol, st, k⟩, hL⟩ : ∃ t, cgLoop (interceptMatvec Xb alpha) tolSq maxIter
        (x0.getD (List.replicate (Xb.cols - 1 + 1) 0))
        (subV (Xb.transpose.dotVec y)
          (interceptMatvec Xb alpha (x0.getD (List.replicate (Xb.cols - 1 + 1) 0))))
        (subV (Xb.transpose.dotVec y)
          (interceptMatvec Xb alpha (x0.getD (List.replicate (Xb.cols - 1 + 1) 0))))
        (dotV (subV (Xb.transpose.dotVec y)
            (interceptMatvec Xb alpha (x0.getD (List.replicate (Xb.cols - 1 + 1) 0))))
          (subV (Xb.transpose.dotVec y)
            (interceptMatvec Xb alpha (x0.getD (List.replicate (Xb.cols - 1 + 1) 0))))) 0
        = t := ⟨_, rfl⟩
    have hsol : sol.length = Xb.cols := by
      have := cgLoop_iterate_length (interceptMatvec Xb alpha) tolSq Xb.cols hmv maxIter
        (x0.getD (List.replicate (Xb.cols - 1 + 1) 0))
        (subV (Xb.transpose.dotVec y)
          (interceptMatvec Xb alpha (x0.getD (List.replicate (Xb.cols - 1 + 1) 0))))
        (subV (Xb.transpose.dotVec y)
          (interceptMatvec Xb alpha (x0.getD (List.replicate (Xb.cols - 1 + 1) 0))))
        (dotV (subV (Xb.transpose.dotVec y)
            (interceptMatvec Xb alpha (x0.getD (List.replicate (Xb.cols - 1 + 1) 0))))
          (subV (Xb.transpose.dotVec y)
            (interceptMatvec Xb alpha (x0.getD (List.replicate (Xb.cols - 1 + 1) 0))))) 0
        hx hr0 hr0
      rwa [hL] at this
    rw [hL] at hcg
    constructor
    · intro h2
      obtain ⟨a, b', hab⟩ := List.length_eq_two.mp (by rw [hsol, h2])
      subst hab
      exact ⟨(a, b'), by simp [sparse_ridge_intercept, hcg]⟩
    · intro h3
      rcases sol with _ | ⟨a, _ | ⟨b', _ | ⟨c, tl⟩⟩⟩
      · simp at hsol; omega
      · simp at hsol; omega
      · simp at hsol; omega
      · simp [sparse_ridge_intercept, hcg]

/-- Witness for claim C10: a 2x3 augmented matrix (one whose solution vector
has three components) makes `sparse_ridge_intercept` fail with the unpacking
error; its two-column conjunct is vacuous at this input. -/
theorem intercept_unpacks_exactly_two_witness :
    ((3 : ℕ) = 2 → ∃ wb, sparse_ridge_intercept ⟨2, 3, [(0, 0, 1)]⟩ [1, 1] 1 none 1 2
        = Except.ok wb) ∧
    ((3 : ℕ) ≤ 3 → sparse_ridge_intercept ⟨2, 3, [(0, 0, 1)]⟩ [1, 1] 1 none 1 2
        = Except.error SolveError.unpackMismatch) :=
  intercept_unpacks_exactly_two ⟨2, 3, [(0, 0, 1)]⟩ [1, 1] 1 none 1 2 (by simp)

/-- `getD` of a map over `List.range`. -/
theorem getD_map_range (f : ℕ → ℚ) (m i : ℕ) :
    ((List.range m).map f).getD i 0 = if i < m then f i else 0 := by
  by_cases h : i < m
  · rw [if_pos h, List.getD_eq_getElem?_getD, List.getElem?_map, List.getElem?_range h]
    rfl
  · rw [if_neg h, List.getD_eq_getElem?_getD, List.getElem?_eq_none (by simp; omega)]
    rfl

/-- `getD` of a scalar multiple. -/
theorem getD_smulV (a : ℚ) (x : List ℚ) (i : ℕ) : (smulV a x).getD i 0 = a * x.getD i 0 := by
  induction x generalizing i with
  | nil => simp [smulV]
  | cons t xs ih =>
    cases i with
    | zero => simp [smulV]
    | succ j => simpa [smulV] using ih j

/-- `getD` of a componentwise sum of equal-length vectors. -/
theorem getD_addV (x y : List ℚ) (i : ℕ) (h : x.length = y.length) :
    (addV x y).getD i 0 = x.getD i 0 + y.getD i 0 := by
  induction x generalizing y i with
  | nil =>
    cases y with
    | nil => simp [addV]
    | cons c ys => simp at h
  | cons t xs ih =>
    cases y with
    | nil => simp at h
    | cons c ys =>
      cases i with
      | zero => simp [addV]
      | succ j => simpa [addV] using ih ys j (by simpa using h)

/-- `getD` of a componentwise product of equal-length vectors. -/
theorem getD_mulW (x y : List ℚ) (i : ℕ) (h : x.length = y.length) :
    (List.zipWith (· * ·) x y).getD i 0 = x.getD i 0 * y.getD i 0 := by
  induction x generalizing y i with
  | nil =>
    cases y with
    | nil => simp
    | cons c ys => simp at h
  | cons t xs ih =>
    cases y with
    | nil => simp at h
    | cons c ys =>
      cases i with
      | zero => simp
      | succ j => simpa using ih ys j (by simpa using h)

/-- Two vectors of equal length agreeing at every `getD` index are equal. -/
theorem ext_getD : ∀ (x y : List ℚ), x.length = y.length →
    (∀ i, x.getD i 0 = y.getD i 0) → x = y
  | [], [], _, _ => rfl
  | [], _ :: _, h, _ => by simp at h
  | _ :: _, [], h, _ => by simp at h
  | t :: xs, c :: ys, h, hp => by
    have h0 : t = c := by simpa using hp 0
    have ht : xs = ys :=
      ext_getD xs ys (by simpa using h) (fun i => by simpa using hp (i + 1))
    rw [h0, ht]

/-- `getD` of the regularization diagonal `[alpha, …, alpha, 0]`. -/
theorem getD_alpha_diag (n : ℕ) (a z : ℚ) (i : ℕ) :
    (List.replicate n a ++ [z]).getD i 0 = if i < n then a else if i = n then z else 0 := by
  induction n generalizing i with
  | zero =>
    cases i with
    | zero => simp
    | succ j => simp
  | succ m ih =>
    cases i with
    | zero => simp [List.replicate_succ]
    | succ j =>
      simp only [List.replicate_succ, List.cons_append, List.getD_cons_succ]
      rw [ih j]
      split_ifs <;> first | rfl | omega

/-- A row sum of the sparse matrix-vector product is linear in the vector
(for equal-length vectors). -/
theorem rowSum_linear (L : List (ℕ × ℕ × ℚ)) (i : ℕ) (a b : ℚ) (u v : List ℚ)
    (h : u.length = v.length) :
    (L.map fun e => if e.1 = i then e.2.2 * (addV (smulV a u) (smulV b v)).getD e.2.1 0
        else 0).sum
      = a * (L.map fun e => if e.1 = i then e.2.2 * u.getD e.2.1 0 else 0).sum
        + b * (L.map fun e => if e.1 = i then e.2.2 * v.getD e.2.1 0 else 0).sum := by
  induction L with
  | nil => simp
  | cons e L ih =>
    simp only [List.map_cons, List.sum_cons]
    rw [ih]
    have hc : (addV (smulV a u) (smulV b v)).getD e.2.1 0
        = a * u.getD e.2.1 0 + b * v.getD e.2.1 0 := by
      rw [getD_addV _ _ _ (by simp [length_smulV, h]), getD_smulV, getD_smulV]
    by_cases he : e.1 = i
    · rw [if_pos he, if_pos he, if_pos he, hc]; ring
    · rw [if_neg he, if_neg he, if_neg he]; ring

/-- The sparse matrix-vector product is linear in the vector. -/
theorem dotVec_linear (X : SparseMatrix) (a b : ℚ) (u v : List ℚ)
    (h : u.length = v.length) :
    X.dotVec (addV (smulV a u) (smulV b v))
      = addV (smulV a (X.dotVec u)) (smulV b (X.dotVec v)) := by
  apply ext_getD
  · simp [SparseMatrix.dotVec, length_addV, length_smulV]
  · intro i
    rw [getD_addV _ _ _ (by simp [length_smulV, SparseMatrix.dotVec]), getD_smulV, getD_smulV]
    simp only [SparseMatrix.dotVec]
    rw [getD_map_range, getD_map_range, getD_map_range]
    by_cases hi : i < X.rows
    · rw [if_pos hi, if_pos hi, if_pos hi]
      exact rowSum_linear X.entries i a b u v h
    · rw [if_neg hi, if_neg hi, if_neg hi]; ring

/-- Scalar multiplication distributes over a linear combination. -/
theorem smulV_addV_smul (al a b : ℚ) (u v : List ℚ) :
    smulV al (addV (smulV a u) (smulV b v))
      = addV (smulV a (smulV al u)) (smulV b (smulV al v)) := by
  induction u generalizing v with
  | nil => simp [smulV, addV]
  | cons t us ih =>
    cases v with
    | nil => simp [smulV, addV]
    | cons s vs =>
      simp [smulV, addV] at ih ⊢
      refine ⟨by ring, ih vs⟩

/-- Rearranging a sum of two linear combinations into a linear combination
of sums. -/
theorem addV_exchange (a b : ℚ) : ∀ (A1 B1 A2 B2 : List ℚ),
    addV (addV (smulV a A1) (smulV b B1)) (addV (smulV a A2) (smulV b B2))
      = addV (smulV a (addV A1 A2)) (smulV b (addV B1 B2)) := by
  intro A1
  induction A1 with
  | nil => intro B1 A2 B2; simp [addV, smulV]
  | cons x A1 ih =>
    intro B1 A2 B2
    cases B1 with
    | nil => simp [addV, smulV]
    | cons y B1 =>
      cases A2 with
      | nil => simp [addV, smulV]
      | cons z A2 =>
        cases B2 with
        | nil => simp [addV, smulV]
        | cons s B2 =>
          have := ih B1 A2 B2
          simp [addV, smulV] at this ⊢
          exact ⟨by ring, this⟩

/-- Claim C7: the matvec the ridge driver wraps in its linear operator,
`w ↦ Xᵀ(X w) + alpha·w`, is linear: on vectors of the operator's dimension
it maps `a·u + b·v` to `a·matvec(u) + b·matvec(v)`. -/
theorem ridge_matvec_linear (X : SparseMatrix) (alpha a b : ℚ) (u v : List ℚ)
    (hu : u.length = X.cols) (hv : v.length = X.cols) :
    ridgeMatvec X alpha (addV (smulV a u) (smulV b v))
      = addV (smulV a (ridgeMatvec X alpha u)) (smulV b (ridgeMatvec X alpha v)) := by
  have h : u.length = v.length := by rw [hu, hv]
  have h2 : (X.dotVec u).length = (X.dotVec v).length := by
    simp [SparseMatrix.dotVec]
  unfold ridgeMatvec
  rw [dotVec_linear X a b u v h, dotVec_linear X.transpose a b _ _ h2,
    smulV_addV_smul, addV_exchange]

/-- Witness for claim C7: linearity at `X = [[1,0],[0,2]]`, `alpha = 1`,
`a = 2, b = 3, u = [1,0], v = [0,1]`. -/
theorem ridge_matvec_linear_witness :
    ridgeMatvec ⟨2, 2, [(0, 0, 1), (1, 1, 2)]⟩ 1 (addV (smulV 2 [1, 0]) (smulV 3 [0, 1]))
      = addV (smulV 2 (ridgeMatvec ⟨2, 2, [(0, 0, 1), (1, 1, 2)]⟩ 1 [1, 0]))
          (smulV 3 (ridgeMatvec ⟨2, 2, [(0, 0, 1), (1, 1, 2)]⟩ 1 [0, 1])) :=
  ridge_matvec_linear ⟨2, 2, [(0, 0, 1), (1, 1, 2)]⟩ 1 2 3 [1, 0] [0, 1] rfl rfl

/-- Claim C3: the intercept driver's operator applied to a `w` of length
`n_features + 1` adds `alpha * w_i` to each of the first `n_features`
coordinates of `Xbᵀ(Xb w)` and adds zero regularization to the last
(intercept) coordinate. -/
theorem intercept_regularization_excludes_intercept (Xb : SparseMatrix) (alpha : ℚ)
    (w : List ℚ) (hc : 1 ≤ Xb.cols) (hw : w.length = Xb.cols) :
    (∀ i, i < Xb.cols - 1 →
      (interceptMatvec Xb alpha w).getD i 0
        = (Xb.transpose.dotVec (Xb.dotVec w)).getD i 0 + alpha * w.getD i 0) ∧
    (interceptMatvec Xb alpha w).getD (Xb.cols - 1) 0
      = (Xb.transpose.dotVec (Xb.dotVec w)).getD (Xb.cols - 1) 0 + 0 := by
  have hdim : Xb.cols - 1 + 1 = Xb.cols := Nat.succ_pred_eq_of_pos hc
  have hdlen : (List.replicate (Xb.cols - 1) alpha ++ [(0 : ℚ)]).length = w.length := by
    simp [hw]; omega
  have hlen : (Xb.transpose.dotVec (Xb.dotVec w)).length
      = (List.zipWith (· * ·) (List.replicate (Xb.cols - 1) alpha ++ [0]) w).length := by
    simp [SparseMatrix.dotVec, SparseMatrix.transpose, hw]; omega
  have key : ∀ i, (interceptMatvec Xb alpha w).getD i 0
      = (Xb.transpose.dotVec (Xb.dotVec w)).getD i 0
        + (if i < Xb.cols - 1 then alpha else if i = Xb.cols - 1 then 0 else 0)
            * w.getD i 0 := by
    intro i
    unfold interceptMatvec
    rw [getD_addV _ _ _ hlen, getD_mulW _ _ _ hdlen, getD_alpha_diag]
  constructor
  · intro i hi
    rw [key i, if_pos hi]
  · rw [key (Xb.cols - 1), if_neg (lt_irrefl _), if_pos rfl, zero_mul]

/-- Witness for claim C3: the augmented matrix `[[1,0,1],[0,1,1]]` with
`alpha = 5` on `w = [1,2,3]`: the first two coordinates get `5·w_i`, the
intercept coordinate gets no regularization. -/
theorem intercept_regularization_excludes_intercept_witness :
    (∀ i, i < (SparseMatrix.mk 2 3 [(0, 0, 1), (1, 1, 1), (0, 2, 1), (1, 2, 1)]).cols - 1 →
      (interceptMatvec ⟨2, 3, [(0, 0, 1), (1, 1, 1), (0, 2, 1), (1, 2, 1)]⟩ 5 [1, 2, 3]).getD i 0
        = ((SparseMatrix.transpose ⟨2, 3, [(0, 0, 1), (1, 1, 1), (0, 2, 1), (1, 2, 1)]⟩).dotVec
            ((SparseMatrix.mk 2 3 [(0, 0, 1), (1, 1, 1), (0, 2, 1), (1, 2, 1)]).dotVec
              [1, 2, 3])).getD i 0 + 5 * ([(1 : ℚ), 2, 3].getD i 0)) ∧
    (interceptMatvec ⟨2, 3, [(0, 0, 1), (1, 1, 1), (0, 2, 1), (1, 2, 1)]⟩ 5 [1, 2, 3]).getD
        ((SparseMatrix.mk 2 3 [(0, 0, 1), (1, 1, 1), (0, 2, 1), (1, 2, 1)]).cols - 1) 0
      = ((SparseMatrix.transpose ⟨2, 3, [(0, 0, 1), (1, 1, 1), (0, 2, 1), (1, 2, 1)]⟩).dotVec
          ((SparseMatrix.mk 2 3 [(0, 0, 1), (1, 1, 1), (0, 2, 1), (1, 2, 1)]).dotVec
            [1, 2, 3])).getD
          ((SparseMatrix.mk 2 3 [(0, 0, 1), (1, 1, 1), (0, 2, 1), (1, 2, 1)]).cols - 1) 0 + 0 :=
  intercept_regularization_excludes_intercept
    ⟨2, 3, [(0, 0, 1), (1, 1, 1), (0, 2, 1), (1, 2, 1)]⟩ 5 [1, 2, 3] (by decide) rfl

/-- A row sum over the stored entries equals the dense sum over the column
range, when all stored column indices are in range. -/
theorem rowSum_eq_dense (L : List (ℕ × ℕ × ℚ)) (i n : ℕ) (w : List ℚ)
    (hL : ∀ e ∈ L, e.2.1 < n) :
    (L.map fun e => if e.1 = i then e.2.2 * w.getD e.2.1 0 else 0).sum
      = ∑ j ∈ Finset.range n,
          (L.map fun e => if e.1 = i ∧ e.2.1 = j then e.2.2 else 0).sum * w.getD j 0 := by
  induction L with
  | nil => simp
  | cons e L ih =>
    have he : e.2.1 < n := hL e (by simp)
    have hrest : ∀ e2 ∈ L, e2.2.1 < n := fun e2 h2 => hL e2 (by simp [h2])
    simp only [List.map_cons, List.sum_cons]
    rw [ih hrest]
    have split : ∑ j ∈ Finset.range n,
        ((if e.1 = i ∧ e.2.1 = j then e.2.2 else 0)
          + (L.map fun e2 => if e2.1 = i ∧ e2.2.1 = j then e2.2.2 else 0).sum) * w.getD j 0
        = (∑ j ∈ Finset.range n, (if e.1 = i ∧ e.2.1 = j then e.2.2 else 0) * w.getD j 0)
          + ∑ j ∈ Finset.range n,
              (L.map fun e2 => if e2.1 = i ∧ e2.2.1 = j then e2.2.2 else 0).sum
                * w.getD j 0 := by
      rw [← Finset.sum_add_distrib]
      exact Finset.sum_congr rfl (fun j _ => by ring)
    rw [split]
    have single : ∑ j ∈ Finset.range n, (if e.1 = i ∧ e.2.1 = j then e.2.2 else 0) * w.getD j 0
        = if e.1 = i then e.2.2 * w.getD e.2.1 0 else 0 := by
      by_cases hei : e.1 = i
      · simp only [hei, true_and, ite_mul, zero_mul]
        rw [Finset.sum_ite_eq]
        simp [Finset.mem_range.mpr he]
      · simp [hei]
    rw [single]

/-- The sparse matrix-vector product agrees with the dense matrix-vector
product of the dense denotation, when the stored column indices respect the
declared shape. -/
theorem dotVec_eq_denseMulVec (X : SparseMatrix) (w : List ℚ)
    (hX : ∀ e ∈ X.entries, e.2.1 < X.cols) :
    X.dotVec w = denseMulVec X.rows X.cols X.toDense w := by
  unfold SparseMatrix.dotVec denseMulVec SparseMatrix.toDense
  apply List.map_congr_left
  intro i _
  exact rowSum_eq_dense X.entries i X.cols w hX

/-- The dense denotation of the transpose is the transposed dense
denotation. -/
theorem toDense_transpose (X : SparseMatrix) (i j : ℕ) :
    X.transpose.toDense i j = X.toDense j i := by
  simp only [SparseMatrix.toDense, SparseMatrix.transpose, List.map_map]
  congr 1
  apply List.map_congr_left
  intro e _
  by_cases h1 : e.2.1 = i <;> by_cases h2 : e.1 = j <;> simp [Function.comp, h1, h2]

/-- The transpose of a well-formed matrix has its stored column indices
inside its declared column count. -/
theorem transpose_col_bound (X : SparseMatrix) (hX : X.WellFormed) :
    ∀ e ∈ X.transpose.entries, e.2.1 < X.transpose.cols := by
  intro e he
  simp only [SparseMatrix.transpose, List.mem_map] at he
  obtain ⟨e0, he0, rfl⟩ := he
  exact (hX e0 he0).1

/-- Applying the transpose sparsely agrees with the dense product with the
transposed dense denotation. -/
theorem transpose_dotVec_dense (X : SparseMatrix) (hX : X.WellFormed) (z : List ℚ) :
    X.transpose.dotVec z = denseMulVec X.cols X.rows (fun i j => X.toDense j i) z := by
  rw [dotVec_eq_denseMulVec X.transpose z (transpose_col_bound X hX)]
  have hM : X.transpose.toDense = fun i j => X.toDense j i := by
    funext i j
    exact toDense_transpose X i j
  rw [hM]
  rfl

/-- Claim C2: for a well-formed sparse `X`, the ridge driver's operator
applied to any `w` of length `n_features` equals the dense
`Xᵀ(X w) + alpha·w`, its right-hand side equals the dense `Xᵀy`, and the
driver passes exactly this operator, this right-hand side and `x0` to the
conjugate gradient solver, returning that solve's solution component. -/
theorem sparse_ridge_builds_spec_operator (X : SparseMatrix) (y : List ℚ) (alpha : ℚ)
    (x0 : Option (List ℚ)) (tolSq : ℚ) (maxIter : ℕ) (w : List ℚ)
    (hX : X.WellFormed) (hw : w.length = X.cols) :
    ridgeMatvec X alpha w = specRidgeApply X alpha w ∧
    X.transpose.dotVec y = specRhs X y ∧
    sparse_ridge X y alpha x0 tolSq maxIter
      = Except.map (fun z => z.1)
          (cg ⟨X.cols, ridgeMatvec X alpha⟩ (X.transpose.dotVec y) x0 tolSq maxIter) := by
  refine ⟨?_, ?_, rfl⟩
  · unfold ridgeMatvec specRidgeApply
    congr 1
    rw [dotVec_eq_denseMulVec X w (fun e he => (hX e he).2)]
    exact transpose_dotVec_dense X hX _
  · exact transpose_dotVec_dense X hX y

/-- Witness for claim C2 at `X = [[1,0],[0,2]]`, `y = [1,1]`, `alpha = 1`,
`w = [1,1]`. -/
theorem sparse_ridge_builds_spec_operator_witness :
    ridgeMatvec ⟨2, 2, [(0, 0, 1), (1, 1, 2)]⟩ 1 [1, 1]
        = specRidgeApply ⟨2, 2, [(0, 0, 1), (1, 1, 2)]⟩ 1 [1, 1] ∧
    (SparseMatrix.transpose ⟨2, 2, [(0, 0, 1), (1, 1, 2)]⟩).dotVec [1, 1]
        = specRhs ⟨2, 2, [(0, 0, 1), (1, 1, 2)]⟩ [1, 1] ∧
    sparse_ridge ⟨2, 2, [(0, 0, 1), (1, 1, 2)]⟩ [1, 1] 1 none (1 / 1000000) 2
      = Except.map (fun z => z.1)
          (cg ⟨(SparseMatrix.mk 2 2 [(0, 0, 1), (1, 1, 2)]).cols,
              ridgeMatvec ⟨2, 2, [(0, 0, 1), (1, 1, 2)]⟩ 1⟩
            ((SparseMatrix.transpose ⟨2, 2, [(0, 0, 1), (1, 1, 2)]⟩).dotVec [1, 1]) none
            (1 / 1000000) 2) :=
  sparse_ridge_builds_spec_operator ⟨2, 2, [(0, 0, 1), (1, 1, 2)]⟩ [1, 1] 1 none
    (1 / 1000000) 2 [1, 1] (by unfold SparseMatrix.WellFormed; decide) rfl

/-- One more pass of the iteration. -/
theorem cgSeq_succ {n : ℕ} (A : Matrix (Fin n) (Fin n) ℚ) (b x0 : Fin n → ℚ) (k : ℕ) :
    cgSeq A b x0 (k + 1) = cgStepM A (cgSeq A b x0 k) := by
  unfold cgSeq
  rw [Function.iterate_succ_apply']

/-- Residual recurrence `r_(k+1) = r_k − alpha_k A p_k`. -/
theorem cgR_succ {n : ℕ} (A : Matrix (Fin n) (Fin n) ℚ) (b x0 : Fin n → ℚ) (k : ℕ) :
    cgR A b x0 (k + 1)
      = cgR A b x0 k - cgAlpha A b x0 k • A.mulVec (cgP A b x0 k) := by
  unfold cgR cgAlpha cgRS cgP
  rw [cgSeq_succ]
  rfl

/-- Iterate recurrence `x_(k+1) = x_k + alpha_k p_k`. -/
theorem cgX_succ {n : ℕ} (A : Matrix (Fin n) (Fin n) ℚ) (b x0 : Fin n → ℚ) (k : ℕ) :
    cgX A b x0 (k + 1) = cgX A b x0 k + cgAlpha A b x0 k • cgP A b x0 k := by
  unfold cgX cgAlpha cgRS cgP cgR
  rw [cgSeq_succ]
  rfl

/-- Direction recurrence `p_(k+1) = r_(k+1) + beta_k p_k`. -/
theorem cgP_succ {n : ℕ} (A : Matrix (Fin n) (Fin n) ℚ) (b x0 : Fin n → ℚ) (k : ℕ) :
    cgP A b x0 (k + 1)
      = cgR A b x0 (k + 1) + (cgRS A b x0 (k + 1) / cgRS A b x0 k) • cgP A b x0 k := by
  unfold cgP cgRS cgR
  rw [cgSeq_succ]
  rfl

/-- The first direction is the first residual. -/
theorem cgP_zero {n : ℕ} (A : Matrix (Fin n) (Fin n) ℚ) (b x0 : Fin n → ℚ) :
    cgP A b x0 0 = cgR A b x0 0 := rfl

/-- The residual tracks the iterate: `r_k = b − A x_k`. -/
theorem cgR_eq_sub {n : ℕ} (A : Matrix (Fin n) (Fin n) ℚ) (b x0 : Fin n → ℚ) (k : ℕ) :
    cgR A b x0 k = b - A.mulVec (cgX A b x0 k) := by
  induction k with
  | zero => rfl
  | succ k ih =>
    rw [cgR_succ, cgX_succ, ih, Matrix.mulVec_add, Matrix.mulVec_smul]
    funext i
    simp only [Pi.sub_apply, Pi.add_apply, Pi.smul_apply, smul_eq_mul]
    ring

/-- A nonzero rational vector has positive dot product with itself. -/
theorem dot_self_pos {m : ℕ} (v : Fin m → ℚ) (hv : v ≠ 0) :
    0 < Matrix.dotProduct v v := by
  have h1 : 0 ≤ Matrix.dotProduct v v :=
    Finset.sum_nonneg fun i _ => mul_self_nonneg (v i)
  rcases h1.lt_or_eq with h | h
  · exact h
  · exact absurd (Matrix.dotProduct_self_eq_zero.mp h.symm) hv

/-- For symmetric `A`, `u·(A v) = (A u)·v`. -/
theorem dot_mulVec_symm {m : ℕ} {A : Matrix (Fin m) (Fin m) ℚ} (hA : A.IsSymm)
    (u v : Fin m → ℚ) :
    Matrix.dotProduct u (A.mulVec v) = Matrix.dotProduct (A.mulVec u) v := by
  rw [Matrix.dotProduct_mulVec, ← Matrix.mulVec_transpose, hA.eq]

/-- A linear combination against a fixed vector, in coordinates. -/
theorem sum_smul_dotProduct {m : ℕ} {s : Type} [Fintype s] (g : s → ℚ)
    (v : s → (Fin m → ℚ)) (w : Fin m → ℚ) :
    Matrix.dotProduct (∑ i, g i • v i) w = ∑ i, g i * Matrix.dotProduct (v i) w := by
  unfold Matrix.dotProduct
  calc (∑ x, (∑ i, g i • v i) x * w x)
      = ∑ x, ∑ i, g i * (v i x * w x) := by
        refine Finset.sum_congr rfl fun x _ => ?_
        rw [Finset.sum_apply, Finset.sum_mul]
        exact Finset.sum_congr rfl fun i _ => by simp [mul_assoc]
    _ = ∑ i, ∑ x, g i * (v i x * w x) := Finset.sum_comm
    _ = ∑ i, g i * ∑ x, v i x * w x := by
        refine Finset.sum_congr rfl fun i _ => ?_
        rw [Finset.mul_sum]

/-- The conjugate gradient invariant propagates one step, as long as no
residual up to `k` has vanished and `A` is symmetric positive-definite. -/
theorem CGInv_succ {n : ℕ} {A : Matrix (Fin n) (Fin n) ℚ} (b x0 : Fin n → ℚ)
    (hA : IsSymmPD A) (k : ℕ) (hnz : ∀ i, i ≤ k → cgR A b x0 i ≠ 0)
    (inv : CGInv A b x0 k) : CGInv A b x0 (k + 1) := by
  obtain ⟨hS, hPD⟩ := hA
  obtain ⟨invR, invC, invRP⟩ := inv
  have rs_pos : ∀ i, i ≤ k → 0 < cgRS A b x0 i := fun i hi => dot_self_pos _ (hnz i hi)
  have rs_ne : ∀ i, i ≤ k → cgRS A b x0 i ≠ 0 := fun i hi => ne_of_gt (rs_pos i hi)
  have rp_self : ∀ i, i ≤ k →
      Matrix.dotProduct (cgR A b x0 i) (cgP A b x0 i) = cgRS A b x0 i := by
    intro i hi
    cases i with
    | zero => rw [cgP_zero]; rfl
    | succ m =>
      rw [cgP_succ, Matrix.dotProduct_add, Matrix.dotProduct_smul, smul_eq_mul]
      have h0 : Matrix.dotProduct (cgP A b x0 m) (cgR A b x0 (m + 1)) = 0 :=
        invRP m (m + 1) (Nat.lt_succ_self m) hi
      rw [Matrix.dotProduct_comm (cgR A b x0 (m + 1)) (cgP A b x0 m), h0, mul_zero, add_zero]
      rfl
  have p_ne : ∀ i, i ≤ k → cgP A b x0 i ≠ 0 := by
    intro i hi hp0
    have h1 := rp_self i hi
    rw [hp0, Matrix.dotProduct_zero] at h1
    exact rs_ne i hi h1.symm
  have pAp_ne : ∀ i, i ≤ k →
      Matrix.dotProduct (cgP A b x0 i) (A.mulVec (cgP A b x0 i)) ≠ 0 :=
    fun i hi => ne_of_gt (hPD _ (p_ne i hi))
  have alpha_ne : ∀ i, i ≤ k → cgAlpha A b x0 i ≠ 0 := by
    intro i hi
    unfold cgAlpha
    exact div_ne_zero (rs_ne i hi) (pAp_ne i hi)
  have smul_Ap : ∀ i, cgAlpha A b x0 i • A.mulVec (cgP A b x0 i)
      = cgR A b x0 i - cgR A b x0 (i + 1) := by
    intro i
    rw [cgR_succ]
    funext t
    simp only [Pi.sub_apply, Pi.smul_apply, smul_eq_mul]
    ring
  have newRP : ∀ i, i ≤ k → Matrix.dotProduct (cgP A b x0 i) (cgR A b x0 (k + 1)) = 0 := by
    intro i hi
    rw [cgR_succ, Matrix.dotProduct_sub, Matrix.dotProduct_smul, smul_eq_mul]
    rcases Nat.lt_or_ge i k with hik | hik
    · rw [invRP i k hik le_rfl, invC i k hik le_rfl, mul_zero, sub_zero]
    · have hik2 : i = k := Nat.le_antisymm hi hik
      subst hik2
      rw [Matrix.dotProduct_comm (cgP A b x0 i) (cgR A b x0 i), rp_self i le_rfl]
      unfold cgAlpha
      rw [div_mul_cancel₀ _ (pAp_ne i le_rfl), sub_self]
  have newR : ∀ i, i ≤ k → Matrix.dotProduct (cgR A b x0 i) (cgR A b x0 (k + 1)) = 0 := by
    intro i hi
    cases i with
    | zero =>
      rw [← cgP_zero A b x0]
      exact newRP 0 (Nat.zero_le k)
    | succ m =>
      have hr : cgR A b x0 (m + 1)
          = cgP A b x0 (m + 1) - (cgRS A b x0 (m + 1) / cgRS A b x0 m) • cgP A b x0 m := by
        rw [cgP_succ]
        funext t
        simp only [Pi.sub_apply, Pi.add_apply, Pi.smul_apply, smul_eq_mul]
        ring
      rw [hr, Matrix.sub_dotProduct, Matrix.smul_dotProduct, smul_eq_mul,
        newRP (m + 1) hi, newRP m (Nat.le_of_succ_le hi), mul_zero, sub_zero]
  have newC : ∀ i, i ≤ k →
      Matrix.dotProduct (cgP A b x0 i) (A.mulVec (cgP A b x0 (k + 1))) = 0 := by
    intro i hi
    rw [cgP_succ, Matrix.mulVec_add, Matrix.mulVec_smul, Matrix.dotProduct_add,
      Matrix.dotProduct_smul, smul_eq_mul]
    have hsym : Matrix.dotProduct (cgP A b x0 i) (A.mulVec (cgR A b x0 (k + 1)))
        = Matrix.dotProduct (A.mulVec (cgP A b x0 i)) (cgR A b x0 (k + 1)) :=
      dot_mulVec_symm hS _ _
    have hApr : cgAlpha A b x0 i
          * Matrix.dotProduct (A.mulVec (cgP A b x0 i)) (cgR A b x0 (k + 1))
        = Matrix.dotProduct (cgR A b x0 i) (cgR A b x0 (k + 1))
          - Matrix.dotProduct (cgR A b x0 (i + 1)) (cgR A b x0 (k + 1)) := by
      rw [← Matrix.sub_dotProduct, ← smul_Ap i, Matrix.smul_dotProduct, smul_eq_mul]
    rcases Nat.lt_or_ge i k with hik | hik
    · have h1 : Matrix.dotProduct (A.mulVec (cgP A b x0 i)) (cgR A b x0 (k + 1)) = 0 := by
        rw [newR i hi, newR (i + 1) hik, sub_zero] at hApr
        exact (mul_eq_zero.mp hApr).resolve_left (alpha_ne i hi)
      rw [hsym, h1, invC i k hik le_rfl, mul_zero, add_zero]
    · have hik2 : i = k := Nat.le_antisymm hi hik
      subst hik2
      rw [newR i le_rfl] at hApr
      have hX : Matrix.dotProduct (A.mulVec (cgP A b x0 i)) (cgR A b x0 (i + 1))
          = -(cgRS A b x0 (i + 1)) / cgAlpha A b x0 i := by
        rw [eq_div_iff (alpha_ne i le_rfl)]
        have hRS : Matrix.dotProduct (cgR A b x0 (i + 1)) (cgR A b x0 (i + 1))
            = cgRS A b x0 (i + 1) := rfl
        rw [hRS] at hApr
        linear_combination hApr
      rw [hsym, hX]
      unfold cgAlpha
      rw [div_div_eq_mul_div]
      field_simp [rs_ne i le_rfl, pAp_ne i le_rfl]
  refine ⟨?_, ?_, ?_⟩ <;> intro i j hij hjk <;>
    rcases Nat.eq_or_lt_of_le hjk with hj | hj
  · subst hj
    exact newR i (Nat.lt_succ_iff.mp hij)
  · exact invR i j hij (Nat.lt_succ_iff.mp hj)
  · subst hj
    exact newC i (Nat.lt_succ_iff.mp hij)
  · exact invC i j hij (Nat.lt_succ_iff.mp hj)
  · subst hj
    exact newRP i (Nat.lt_succ_iff.mp hij)
  · exact invRP i j hij (Nat.lt_succ_iff.mp hj)

/-- The invariant holds at `k` whenever no residual before `k` vanished. -/
theorem CGInv_all {n : ℕ} {A : Matrix (Fin n) (Fin n) ℚ} (b x0 : Fin n → ℚ)
    (hA : IsSymmPD A) (k : ℕ) (hnz : ∀ i, i < k → cgR A b x0 i ≠ 0) :
    CGInv A b x0 k := by
  induction k with
  | zero =>
    refine ⟨?_, ?_, ?_⟩ <;> intro i j hij hjk <;> omega
  | succ k ih =>
    exact CGInv_succ b x0 hA k (fun i hi => hnz i (by omega))
      (ih (fun i hi => hnz i (by omega)))

/-- Mutually orthogonal nonzero rational vectors are linearly independent. -/
theorem orthogonal_linearIndependent {m : ℕ} {s : Type} [Fintype s]
    (v : s → (Fin m → ℚ)) (hnz : ∀ i, v i ≠ 0)
    (hortho : ∀ i j, i ≠ j → Matrix.dotProduct (v i) (v j) = 0) :
    LinearIndependent ℚ v := by
  rw [Fintype.linearIndependent_iff]
  intro g hg j
  have hdot : Matrix.dotProduct (∑ i, g i • v i) (v j) = 0 := by
    rw [hg, Matrix.zero_dotProduct]
  rw [sum_smul_dotProduct] at hdot
  rw [Finset.sum_eq_single j (fun i _ hij => by rw [hortho i j hij, mul_zero])
    (fun hj => absurd (Finset.mem_univ j) hj)] at hdot
  rcases mul_eq_zero.mp hdot with h | h
  · exact h
  · exact absurd h (ne_of_gt (dot_self_pos (v j) (hnz j)))

/-- Some residual among `r_0, …, r_n` vanishes: `n + 1` nonzero mutually
orthogonal vectors cannot fit in `ℚ^n`. -/
theorem cg_residual_vanishes {n : ℕ} {A : Matrix (Fin n) (Fin n) ℚ} (b x0 : Fin n → ℚ)
    (hA : IsSymmPD A) : ∃ k, k ≤ n ∧ cgR A b x0 k = 0 := by
  by_contra hc
  push_neg at hc
  have hnz : ∀ i : ℕ, i ≤ n → cgR A b x0 i ≠ 0 := fun i hi => hc i hi
  have inv : CGInv A b x0 n := CGInv_all b x0 hA n (fun i hi => hnz i (le_of_lt hi))
  set v : Fin (n + 1) → (Fin n → ℚ) := fun i => cgR A b x0 i.val with hv
  have hvnz : ∀ i : Fin (n + 1), v i ≠ 0 := fun i => hnz i.val (Nat.lt_succ_iff.mp i.isLt)
  have hortho : ∀ i j : Fin (n + 1), i ≠ j → Matrix.dotProduct (v i) (v j) = 0 := by
    intro i j hij
    rcases Nat.lt_or_ge i.val j.val with h | h
    · exact inv.1 i.val j.val h (Nat.lt_succ_iff.mp j.isLt)
    · have h2 : j.val < i.val := by
        rcases Nat.lt_or_ge j.val i.val with h2 | h2
        · exact h2
        · exact absurd (Fin.ext (Nat.le_antisymm h h2)) (Ne.symm hij)
      rw [Matrix.dotProduct_comm]
      exact inv.1 j.val i.val h2 (Nat.lt_succ_iff.mp i.isLt)
  have hli : LinearIndependent ℚ v := orthogonal_linearIndependent v hvnz hortho
  have hcard := hli.fintype_card_le_finrank
  rw [Module.finrank_fin_fun, Fintype.card_fin] at hcard
  omega

/-- Claim C6: for every symmetric positive-definite `A` of dimension `n` and
every right-hand side `b` (and any starting point `x0`), the exact-arithmetic
conjugate gradient iteration of spec section 4.2 reaches, within at most `n`
iterations, an iterate `x_k` with `A x_k = b`; since `A` is injective this
iterate is the unique (hence exact) solution `A⁻¹ b`. -/
theorem cg_exact_in_n_iterations {n : ℕ} (A : Matrix (Fin n) (Fin n) ℚ) (b x0 : Fin n → ℚ)
    (hA : IsSymmPD A) :
    ∃ k, k ≤ n ∧ A.mulVec (cgX A b x0 k) = b ∧
      ∀ z, A.mulVec z = b → z = cgX A b x0 k := by
  obtain ⟨k, hk, hrk⟩ := cg_residual_vanishes b x0 hA
  have hsol : A.mulVec (cgX A b x0 k) = b := by
    have h1 := cgR_eq_sub A b x0 k
    rw [hrk] at h1
    exact (sub_eq_zero.mp h1.symm).symm
  refine ⟨k, hk, hsol, ?_⟩
  intro z hz
  by_contra hne
  have hvne : z - cgX A b x0 k ≠ 0 := sub_ne_zero.mpr hne
  have hpos := hA.2 _ hvne
  rw [Matrix.mulVec_sub, hz, hsol, sub_self, Matrix.dotProduct_zero] at hpos
  exact lt_irrefl 0 hpos

/-- Witness for claim C6: the 1-dimensional system `2x = 2` is solved exactly
within one iteration. -/
theorem cg_exact_in_n_iterations_witness :
    ∃ k, k ≤ 1 ∧ Matrix.mulVec !![(2 : ℚ)] (cgX !![(2 : ℚ)] ![2] ![0] k) = ![2] ∧
      ∀ z, Matrix.mulVec !![(2 : ℚ)] z = ![2] → z = cgX !![(2 : ℚ)] ![2] ![0] k :=
  cg_exact_in_n_iterations !![(2 : ℚ)] ![2] ![0]
    ⟨by decide, by
      intro v hv
      have hv0 : v 0 ≠ 0 := fun h0 => hv (funext fun i => by fin_cases i; exact h0)
      have h2 : 0 < v 0 * v 0 := mul_self_pos.mpr hv0
      simp [Matrix.dotProduct, Matrix.mulVec, Fin.sum_univ_one]
      nlinarith⟩
